import Mathlib

/-!
Verification of the vocabulary aggregator pipeline
(`src/pages/Vocabulary.jsx`, with the older variant in `src/unnamed/part_000`).

The component groups a flat list of vocabulary entries by category, scores and
ranks categories by aggregate difficulty, sorts entries within a category by
difficulty, filters by a selected difficulty and a debounced search term,
and tracks per-category visibility for lazy reveal.

Modelling conventions:
* JavaScript strings are Lean `String`s; the case-insensitive operations
  (`toLowerCase`, `trim`, `includes`) are modelled over `List Char`
  (`String.toList`), since JS `toLowerCase` lowercases per code point
  (`Char.toLower`; identity on non-ASCII, as in the Arabic/Bengali data).
* The JS `Map` (insertion-ordered) is an association list; `Map.get`/`set`
  become `lookupGroup`/`insertEntry` and `lookupScore`/`bumpScore`.
* `Array.prototype.sort` with comparator `(a, b) => key(b) - key(a)` is a
  stable descending sort by `key` (stability is guaranteed by ES2019); it is
  modelled by `List.insertionSort (fun a b => key b ≤ key a)`, which is the
  stable sort for that comparator.
* The nullable `selectedDifficulty` is an `Option String`; a missing
  `pronunciation` field is `Option.none`.
-/

/-- A vocabulary entry as consumed by the component: `arabic`, `bengali`,
optional `pronunciation`, `category`, and a `difficulty` string (which may
fall outside the known enum `easy`/`medium`/`hard`). -/
structure VocabEntry where
  arabic : String
  bengali : String
  pronunciation : Option String
  category : String
  difficulty : String
deriving DecidableEq

/-- `DIFFICULTY.ORDER[d] || 0`: easy = 1, medium = 2, hard = 3, anything
else (unknown difficulty) = 0. -/
def difficultyOrder (d : String) : Nat :=
  if d = "easy" then 1 else if d = "medium" then 2 else if d = "hard" then 3 else 0

/-- The per-entry sort weight `DIFFICULTY.ORDER[item.difficulty] || 0`. -/
def entryWeight (e : VocabEntry) : Nat := difficultyOrder e.difficulty

/-- The `grouped` map: category name to its list of entries, kept in
insertion order like a JS `Map`. -/
abbrev Groups := List (String × List VocabEntry)

/-- The `scores` map: category name to its running aggregate score. -/
abbrev Scores := List (String × Nat)

/-- `grouped.get(c)`, with `[]` for a missing key (the code only reads
existing keys). -/
def lookupGroup : Groups → String → List VocabEntry
  | [], _ => []
  | (c', ws) :: rest, c => if c' = c then ws else lookupGroup rest c

/-- `scores.get(c) || 0`. -/
def lookupScore : Scores → String → Nat
  | [], _ => 0
  | (c', n) :: rest, c => if c' = c then n else lookupScore rest c

/-- One loop iteration on `grouped`: `if (!grouped.has(cat)) grouped.set(cat, []);
grouped.get(cat).push(item)`. A new category is appended at the end
(JS `Map` insertion order); an existing category gets the entry pushed. -/
def insertEntry : Groups → VocabEntry → Groups
  | [], e => [(e.category, [e])]
  | (c, ws) :: rest, e =>
    if c = e.category then (c, ws ++ [e]) :: rest
    else (c, ws) :: insertEntry rest e

/-- One loop iteration on `scores`: `scores.set(cat, (scores.get(cat) || 0) + w)`. -/
def bumpScore : Scores → String → Nat → Scores
  | [], c, w => [(c, w)]
  | (c', n) :: rest, c, w =>
    if c' = c then (c', n + w) :: rest
    else (c', n) :: bumpScore rest c w

/-- The body of the single grouping/scoring loop over `vocabData`. -/
def groupScoreStep (acc : Groups × Scores) (e : VocabEntry) : Groups × Scores :=
  (insertEntry acc.1 e, bumpScore acc.2 e.category (entryWeight e))

/-- The whole grouping/scoring loop: one pass over the input accumulating
`grouped` and `scores`. -/
def groupScorePass (vocab : List VocabEntry) : Groups × Scores :=
  vocab.foldl groupScoreStep ([], [])

/-- JS `arr.sort((a, b) => key(b) - key(a))`: a stable sort descending by
`key` (ties keep their previous relative order). -/
def sortByKeyDesc {α : Type} (key : α → Nat) (l : List α) : List α :=
  List.insertionSort (fun a b => key b ≤ key a) l

/-- The derived index: `groupedVocabulary` (each category's entries sorted
descending by difficulty weight) and `categoryList` (category names ranked
descending by aggregate score). -/
structure CategoryIndex where
  groups : Groups
  ranked : List String
deriving DecidableEq

/-- The `groupedVocabulary`/`categoryList` `useMemo`: group and score in one
pass, rank the categories by descending score (`sortedCategories`), then sort
each category's entries by descending difficulty weight. -/
def buildIndex (vocab : List VocabEntry) : CategoryIndex :=
  let gs := (groupScorePass vocab).1
  let ss := (groupScorePass vocab).2
  let sortedCategories := sortByKeyDesc (lookupScore ss) (gs.map (fun p => p.1))
  { groups := gs.map (fun p => (p.1, sortByKeyDesc entryWeight p.2)),
    ranked := sortedCategories }

/-- `const vocabData = useMemo(() => vocabulary || [], [vocabulary])`:
absent (null/undefined) input becomes the empty list; an array (even empty)
is passed through. -/
def vocabData (vocabulary : Option (List VocabEntry)) : List VocabEntry :=
  vocabulary.getD []

/-- The `part_000` variant's grouping `useMemo`. It runs the same
grouping/scoring/sorting algorithm, but reads `vocabulary.length` directly
with no `vocabulary || []` guard, so an absent (null/undefined) input throws
a `TypeError` instead of producing an empty index. The thrown exception is
modelled as `Except.error`. (JS object key ordering for integer-like
category names is not modelled; the claims touching this variant concern
absent/empty input only.) -/
def part0GroupedVocabulary (vocabulary : Option (List VocabEntry)) :
    Except String CategoryIndex :=
  match vocabulary with
  | none => Except.error "TypeError: cannot read length of undefined"
  | some l => Except.ok (buildIndex l)

/-- `s.toLowerCase()` over code points. -/
def lowerList (s : String) : List Char := s.toList.map Char.toLower

/-- `s.trim()`: strip leading and trailing whitespace. -/
def jsTrimList (s : String) : List Char :=
  ((s.toList.dropWhile Char.isWhitespace).reverse.dropWhile Char.isWhitespace).reverse

/-- Whether `needle` occurs at the start of `hay`. -/
def listStarts : List Char → List Char → Bool
  | _, [] => true
  | [], _ :: _ => false
  | a :: as, b :: bs => a == b && listStarts as bs

/-- JS `hay.includes(needle)`: `needle` occurs contiguously in `hay`
(an empty needle always matches). -/
def listContains : List Char → List Char → Bool
  | [], needle => needle.isEmpty
  | h :: t, needle => listStarts (h :: t) needle || listContains t needle

/-- `hay.toLowerCase().includes(lower)` for an already-lowercased `lower`. -/
def includesLower (hay : String) (lower : List Char) : Bool :=
  listContains (lowerList hay) lower

/-- The word-level search predicate:
`(word.arabic && word.arabic.toLowerCase().includes(lower)) || (bengali…) ||
(word.pronunciation && word.pronunciation.toLowerCase().includes(lower))`.
A missing or empty (falsy) `pronunciation` never matches. -/
def matchesWord (lower : List Char) (w : VocabEntry) : Bool :=
  (!(w.arabic == "") && includesLower w.arabic lower) ||
  (!(w.bengali == "") && includesLower w.bengali lower) ||
  (match w.pronunciation with
   | some p => !(p == "") && includesLower p lower
   | none => false)

/-- `selectedDifficulty ? allWords.filter(w => w.difficulty === selectedDifficulty)
: allWords` for one category. -/
def difficultyFilteredWords (groups : Groups) (sel : Option String) (c : String) :
    List VocabEntry :=
  let allWords := lookupGroup groups c
  match sel with
  | some d => allWords.filter (fun w => w.difficulty == d)
  | none => allWords

/-- The difficulty-filter loop over `categoryList`: keep each category's
difficulty-filtered entries when nonempty, and accumulate the running
total of kept entries. -/
def difficultyStep (groups : Groups) (sel : Option String) :
    List String → List (String × List VocabEntry) × Nat
  | [] => ([], 0)
  | c :: cs =>
    let fd := difficultyFilteredWords groups sel c
    let rest := difficultyStep groups sel cs
    if fd.isEmpty then rest else ((c, fd) :: rest.1, fd.length + rest.2)

/-- The search loop over the difficulty-filtered data: a category whose
lowercased name contains `lower` is kept with all of its words; otherwise
only the words matched by `matchesWord` are kept, and a category left with
no words is dropped. The running count of surviving words is accumulated. -/
def searchStep (lower : List Char) :
    List (String × List VocabEntry) → List (String × List VocabEntry) × Nat
  | [] => ([], 0)
  | (c, ws) :: rest =>
    let r := searchStep lower rest
    if includesLower c lower then ((c, ws) :: r.1, ws.length + r.2)
    else
      let fws := ws.filter (matchesWord lower)
      if fws.isEmpty then r else ((c, fws) :: r.1, fws.length + r.2)

/-- The `filteredCategoriesAndWords`/`totalFilteredWords` `useMemo`:
difficulty filter first; then, when the trimmed search term is nonempty,
the search filter with `lower = debouncedSearch.trim().toLowerCase()`. -/
def filteredPipeline (vocab : List VocabEntry) (selectedDifficulty : Option String)
    (debouncedSearch : String) : List (String × List VocabEntry) × Nat :=
  let idx := buildIndex vocab
  let dfd := difficultyStep idx.groups selectedDifficulty idx.ranked
  let trimmed := jsTrimList debouncedSearch
  if trimmed.isEmpty then dfd
  else searchStep (trimmed.map Char.toLower) dfd.1

/-- `isVisible={visibleCategories.size === 0 || visibleCategories.has(category)}`
(the `Vocabulary.jsx` variant, with the empty-set bootstrap rule). -/
def isVisibleJsx (visibleCategories : Finset String) (category : String) : Bool :=
  decide (visibleCategories.card = 0) || decide (category ∈ visibleCategories)

/-- `isVisible={visibleCategories.has(category)}` (the `part_000` variant:
no empty-set bootstrap). -/
def isVisiblePart0 (visibleCategories : Finset String) (category : String) : Bool :=
  decide (category ∈ visibleCategories)

/-- One entry delivered to the intersection-observer callback: the
`isIntersecting` flag and `entry.target.dataset.category`. -/
structure ObsEntry where
  isIntersecting : Bool
  targetCategory : String

/-- The `observerCallback`: copy the current set and add the category of
every intersecting entry (the state update publishes the new set only when
something was added; as a set it equals the union either way). -/
def observerCallback (visibleCategories : Finset String) (entries : List ObsEntry) :
    Finset String :=
  entries.foldl
    (fun s e => if e.isIntersecting then insert e.targetCategory s else s)
    visibleCategories

/-- The component state touched by the events we model: the visibility set
and the two filter inputs. -/
structure CompState where
  visibleCategories : Finset String
  search : String
  selectedDifficulty : Option String

/-- The events that can touch that state over the component's lifetime:
an observer-callback delivery, a search-term change, a difficulty change. -/
inductive VocabEvent where
  | observe (entries : List ObsEntry)
  | setSearch (s : String)
  | setDifficulty (d : Option String)

/-- The state transition for each event, as in the code: only
`observerCallback` writes `visibleCategories`; the filter setters write only
their own field (no code path clears or resets the visibility set). -/
def stepEvent (st : CompState) (e : VocabEvent) : CompState :=
  match e with
  | .observe entries =>
    { st with visibleCategories := observerCallback st.visibleCategories entries }
  | .setSearch s => { st with search := s }
  | .setDifficulty d => { st with selectedDifficulty := d }

/-- Run a sequence of events from a state. -/
def runEvents (st : CompState) (es : List VocabEvent) : CompState :=
  es.foldl stepEvent st

/-- The `useSearch` debounce, as a function from the timed sequence of raw
value updates to the timed sequence of `setDebouncedValue` calls. Each
update clears the pending timer and schedules `setDebouncedValue(value)`
`delay` ms later, so update `(t, v)` fires at `t + delay` exactly when the
next update (if any) arrives no earlier than `t + delay`. Updates are given
in chronological order. -/
def debounceFires (delay : Nat) : List (Nat × String) → List (Nat × String)
  | [] => []
  | [(t, v)] => [(t + delay, v)]
  | (t, v) :: (t', v') :: rest =>
    if t' < t + delay then debounceFires delay ((t', v') :: rest)
    else (t + delay, v) :: debounceFires delay ((t', v') :: rest)

/-- `debounceFires` with the unmount cleanup: the effect cleanup runs
`clearTimeout`, so a scheduled update only runs if it fires strictly before
the unmount time. -/
def debounceRuns (delay : Nat) (keystrokes : List (Nat × String))
    (unmount : Option Nat) : List (Nat × String) :=
  (debounceFires delay keystrokes).filter (fun f =>
    match unmount with
    | none => true
    | some u => decide (f.1 < u))

/-- Each update arrives strictly within `delay` of the previous one. -/
def withinWindowB (delay : Nat) : List (Nat × String) → Bool
  | [] => true
  | [_] => true
  | a :: b :: rest => decide (b.1 < a.1 + delay) && withinWindowB delay (b :: rest)

example : difficultyOrder "hard" = 3 := by decide
example : (buildIndex []).ranked = [] := by decide

/-! ### Stable sort lemmas -/

theorem sortByKeyDesc_perm {α : Type} (key : α → Nat) (l : List α) :
    (sortByKeyDesc key l).Perm l :=
  List.perm_insertionSort _ l

theorem sortByKeyDesc_sorted {α : Type} (key : α → Nat) (l : List α) :
    List.Sorted (fun a b => key b ≤ key a) (sortByKeyDesc key l) := by
  haveI : IsTotal α (fun a b => key b ≤ key a) :=
    ⟨fun a b => Nat.le_total (key b) (key a)⟩
  haveI : IsTrans α (fun a b => key b ≤ key a) :=
    ⟨fun _ _ _ h1 h2 => Nat.le_trans h2 h1⟩
  exact List.sorted_insertionSort _ l

theorem filter_orderedInsert {α : Type} (key : α → Nat) (k : Nat) (x : α) (l : List α) :
    (List.orderedInsert (fun a b => key b ≤ key a) x l).filter (fun a => key a == k) =
      if key x = k then x :: l.filter (fun a => key a == k)
      else l.filter (fun a => key a == k) := by
  induction l with
  | nil =>
    by_cases h : key x = k <;> simp [List.orderedInsert, List.filter_cons, h]
  | cons y ys ih =>
    simp only [List.orderedInsert]
    by_cases hxy : key y ≤ key x
    · rw [if_pos hxy]
      by_cases h : key x = k <;> simp [List.filter_cons, h]
    · rw [if_neg hxy, List.filter_cons, ih]
      have hyk : key x < key y := Nat.lt_of_not_le hxy
      by_cases h : key x = k
      · have hy : ¬ key y = k := by omega
        simp [h, hy]
      · by_cases hy : key y = k <;> simp [h, hy, List.filter_cons]

theorem filter_sortByKeyDesc {α : Type} (key : α → Nat) (k : Nat) (l : List α) :
    (sortByKeyDesc key l).filter (fun a => key a == k) = l.filter (fun a => key a == k) := by
  induction l with
  | nil => rfl
  | cons x xs ih =>
    show (List.orderedInsert _ x (List.insertionSort _ xs)).filter _ = _
    rw [filter_orderedInsert]
    by_cases h : key x = k <;> simp [h, List.filter_cons] <;> exact ih

/-! ### Association-list (JS `Map`) lemmas -/

theorem lookupGroup_insertEntry (gs : Groups) (e : VocabEntry) (c : String) :
    lookupGroup (insertEntry gs e) c =
      if e.category = c then lookupGroup gs c ++ [e] else lookupGroup gs c := by
  induction gs with
  | nil =>
    by_cases h : e.category = c <;> simp [insertEntry, lookupGroup, h]
  | cons p rest ih =>
    obtain ⟨c', ws⟩ := p
    by_cases hc : c' = e.category <;> by_cases hcc : c' = c
    · have he : e.category = c := hc.symm.trans hcc
      simp [insertEntry, lookupGroup, hc, hcc, he]
    · have he : ¬ e.category = c := fun h => hcc (hc.trans h)
      simp [insertEntry, lookupGroup, hc, hcc, he]
    · have he : ¬ e.category = c := fun h => hc (hcc.trans h.symm)
      have hne : ¬ c = e.category := fun h => he h.symm
      simp [insertEntry, lookupGroup, hc, hcc, he, hne]
    · simp [insertEntry, lookupGroup, hc, hcc, ih]

theorem lookupScore_bumpScore (ss : Scores) (c' : String) (w : Nat) (c : String) :
    lookupScore (bumpScore ss c' w) c =
      if c' = c then lookupScore ss c + w else lookupScore ss c := by
  induction ss with
  | nil =>
    by_cases h : c' = c <;> simp [bumpScore, lookupScore, h]
  | cons p rest ih =>
    obtain ⟨c₀, n⟩ := p
    by_cases h0 : c₀ = c'
    · subst h0
      by_cases hcc : c₀ = c <;> simp [bumpScore, lookupScore, hcc]
    · by_cases hcc : c₀ = c
      · subst hcc
        have : ¬ c' = c₀ := fun h => h0 h.symm
        simp [bumpScore, lookupScore, h0, this]
      · simp [bumpScore, lookupScore, h0, hcc, ih]

theorem foldl_groupScoreStep_fst (l : List VocabEntry) (gs : Groups) (ss : Scores) :
    (l.foldl groupScoreStep (gs, ss)).1 = l.foldl insertEntry gs := by
  induction l generalizing gs ss with
  | nil => rfl
  | cons e t ih => simpa [groupScoreStep] using ih (insertEntry gs e) _

theorem foldl_groupScoreStep_snd (l : List VocabEntry) (gs : Groups) (ss : Scores) :
    (l.foldl groupScoreStep (gs, ss)).2 =
      l.foldl (fun acc e => bumpScore acc e.category (entryWeight e)) ss := by
  induction l generalizing gs ss with
  | nil => rfl
  | cons e t ih => simpa [groupScoreStep] using ih (insertEntry gs e) _

theorem lookupGroup_foldl (l : List VocabEntry) (gs : Groups) (c : String) :
    lookupGroup (l.foldl insertEntry gs) c =
      lookupGroup gs c ++ l.filter (fun e => e.category == c) := by
  induction l generalizing gs with
  | nil => simp
  | cons e t ih =>
    rw [List.foldl_cons, ih, lookupGroup_insertEntry]
    by_cases h : e.category = c <;> simp [List.filter_cons, h]

theorem lookupGroup_groupScorePass (vocab : List VocabEntry) (c : String) :
    lookupGroup (groupScorePass vocab).1 c = vocab.filter (fun e => e.category == c) := by
  rw [groupScorePass, foldl_groupScoreStep_fst, lookupGroup_foldl]
  rfl

/-- The aggregate score of a category: the sum of the difficulty weights of
the input entries carrying that category. -/
def catScore (vocab : List VocabEntry) (c : String) : Nat :=
  ((vocab.filter (fun e => e.category == c)).map entryWeight).sum

theorem lookupScore_foldl (l : List VocabEntry) (ss : Scores) (c : String) :
    lookupScore (l.foldl (fun acc e => bumpScore acc e.category (entryWeight e)) ss) c =
      lookupScore ss c + ((l.filter (fun e => e.category == c)).map entryWeight).sum := by
  induction l generalizing ss with
  | nil => simp
  | cons e t ih =>
    rw [List.foldl_cons, ih, lookupScore_bumpScore]
    by_cases h : e.category = c
    · simp [List.filter_cons, h]
      omega
    · simp [List.filter_cons, h]

theorem lookupScore_groupScorePass (vocab : List VocabEntry) (c : String) :
    lookupScore (groupScorePass vocab).2 c = catScore vocab c := by
  rw [groupScorePass, foldl_groupScoreStep_snd, lookupScore_foldl, catScore]
  simp [lookupScore]

/-! ### Category keys: first-seen order, no duplicates -/

/-- The order in which category names are first encountered in the input
(the key order of the insertion-ordered `grouped` map). -/
def seenStep (acc : List String) (e : VocabEntry) : List String :=
  if e.category ∈ acc then acc else acc ++ [e.category]

/-- First-encountered category names, in input order. -/
def firstSeenCategories (vocab : List VocabEntry) : List String :=
  vocab.foldl seenStep []

theorem keys_insertEntry (gs : Groups) (e : VocabEntry) :
    (insertEntry gs e).map (fun p => p.1) = seenStep (gs.map (fun p => p.1)) e := by
  induction gs with
  | nil => simp [insertEntry, seenStep]
  | cons p rest ih =>
    obtain ⟨c', ws⟩ := p
    by_cases hc : c' = e.category
    · simp [insertEntry, seenStep, hc]
    · have : ¬ e.category = c' := fun h => hc h.symm
      simp only [insertEntry, if_neg hc, List.map_cons, ih, seenStep, List.mem_cons]
      by_cases hm : e.category ∈ rest.map (fun p => p.1) <;> simp [hm, this]

theorem keys_foldl (l : List VocabEntry) (gs : Groups) :
    (l.foldl insertEntry gs).map (fun p => p.1) =
      l.foldl seenStep (gs.map (fun p => p.1)) := by
  induction l generalizing gs with
  | nil => rfl
  | cons e t ih => rw [List.foldl_cons, List.foldl_cons, ih, keys_insertEntry]

theorem keys_groupScorePass (vocab : List VocabEntry) :
    (groupScorePass vocab).1.map (fun p => p.1) = firstSeenCategories vocab := by
  rw [groupScorePass, foldl_groupScoreStep_fst, keys_foldl]
  rfl

theorem seen_foldl_nodup (l : List VocabEntry) (acc : List String) (h : acc.Nodup) :
    (l.foldl seenStep acc).Nodup := by
  induction l generalizing acc with
  | nil => exact h
  | cons e t ih =>
    rw [List.foldl_cons]
    refine ih _ ?_
    by_cases hm : e.category ∈ acc
    · simpa [seenStep, hm] using h
    · simp [seenStep, hm, List.nodup_append, h]

theorem firstSeen_nodup (vocab : List VocabEntry) :
    (firstSeenCategories vocab).Nodup :=
  seen_foldl_nodup vocab [] List.nodup_nil

theorem mem_seen_foldl_of_mem (l : List VocabEntry) (acc : List String) (c : String)
    (h : c ∈ acc) : c ∈ l.foldl seenStep acc := by
  induction l generalizing acc with
  | nil => exact h
  | cons e t ih =>
    rw [List.foldl_cons]
    refine ih _ ?_
    by_cases hm : e.category ∈ acc <;> simp [seenStep, hm, h]

theorem category_mem_seen_foldl (l : List VocabEntry) (acc : List String)
    (e : VocabEntry) : e ∈ l → e.category ∈ l.foldl seenStep acc := by
  induction l generalizing acc with
  | nil => intro h; cases h
  | cons a t ih =>
    intro he
    rw [List.foldl_cons]
    rcases List.mem_cons.mp he with h | h
    · subst h
      refine mem_seen_foldl_of_mem t _ _ ?_
      by_cases hm : e.category ∈ acc <;> simp [seenStep, hm]
    · exact ih _ h

theorem category_mem_firstSeen (vocab : List VocabEntry) (e : VocabEntry)
    (he : e ∈ vocab) : e.category ∈ firstSeenCategories vocab :=
  category_mem_seen_foldl vocab [] e he

/-! ### Flattening the groups back to the input (multiset identity) -/

theorem flatten_insertEntry (gs : Groups) (e : VocabEntry) :
    (((insertEntry gs e).map (fun p => p.2)).flatten).Perm
      ((gs.map (fun p => p.2)).flatten ++ [e]) := by
  induction gs with
  | nil => simp [insertEntry]
  | cons p rest ih =>
    obtain ⟨c', ws⟩ := p
    by_cases hc : c' = e.category
    · simp only [insertEntry, if_pos hc, List.map_cons, List.flatten_cons,
        List.append_assoc]
      exact List.Perm.append_left ws List.perm_append_comm
    · simp only [insertEntry, if_neg hc, List.map_cons, List.flatten_cons,
        List.append_assoc]
      exact List.Perm.append_left ws ih

theorem flatten_foldl_insertEntry (l : List VocabEntry) (gs : Groups) :
    (((l.foldl insertEntry gs).map (fun p => p.2)).flatten).Perm
      ((gs.map (fun p => p.2)).flatten ++ l) := by
  induction l generalizing gs with
  | nil => simp
  | cons e t ih =>
    rw [List.foldl_cons]
    refine (ih (insertEntry gs e)).trans ?_
    refine (List.Perm.append_right t (flatten_insertEntry gs e)).trans ?_
    simp [List.append_assoc]

theorem lookupGroup_map_sort (gs : Groups) (c : String) :
    lookupGroup (gs.map (fun p => (p.1, sortByKeyDesc entryWeight p.2))) c =
      sortByKeyDesc entryWeight (lookupGroup gs c) := by
  induction gs with
  | nil => rfl
  | cons p rest ih =>
    obtain ⟨c', ws⟩ := p
    by_cases hc : c' = c <;> simp [lookupGroup, hc, ih]

theorem flatten_map_sort (gs : Groups) :
    (((gs.map (fun p => (p.1, sortByKeyDesc entryWeight p.2))).map
        (fun p => p.2)).flatten).Perm ((gs.map (fun p => p.2)).flatten) := by
  induction gs with
  | nil => exact List.Perm.refl _
  | cons p rest ih =>
    simp only [List.map_cons, List.flatten_cons]
    exact (sortByKeyDesc_perm entryWeight p.2).append ih

/-! ### Filtering pipeline lemmas -/

theorem difficultyStep_total_eq_sum (groups : Groups) (sel : Option String)
    (cs : List String) :
    (difficultyStep groups sel cs).2 =
      ((difficultyStep groups sel cs).1.map (fun p => p.2.length)).sum := by
  induction cs with
  | nil => rfl
  | cons c cs ih =>
    simp only [difficultyStep]
    by_cases h : (difficultyFilteredWords groups sel c).isEmpty <;> simp [h, ih]

theorem difficultyStep_total_eq_map_sum (groups : Groups) (sel : Option String)
    (cs : List String) :
    (difficultyStep groups sel cs).2 =
      (cs.map (fun c => (difficultyFilteredWords groups sel c).length)).sum := by
  induction cs with
  | nil => rfl
  | cons c cs ih =>
    simp only [difficultyStep, List.map_cons, List.sum_cons]
    by_cases h : (difficultyFilteredWords groups sel c).isEmpty
    · have h0 : difficultyFilteredWords groups sel c = [] := List.isEmpty_iff.mp h
      simp [h, ih, h0]
    · simp [h, ih]

theorem difficultyStep_flatten (groups : Groups) (sel : Option String)
    (cs : List String) :
    ((difficultyStep groups sel cs).1.map (fun p => p.2)).flatten =
      (cs.map (fun c => difficultyFilteredWords groups sel c)).flatten := by
  induction cs with
  | nil => rfl
  | cons c cs ih =>
    simp only [difficultyStep, List.map_cons, List.flatten_cons]
    by_cases h : (difficultyFilteredWords groups sel c).isEmpty
    · have h0 : difficultyFilteredWords groups sel c = [] := List.isEmpty_iff.mp h
      simp [h, ih, h0]
    · simp [h, ih]

theorem difficultyStep_keys_sublist (groups : Groups) (sel : Option String)
    (cs : List String) :
    ((difficultyStep groups sel cs).1.map (fun p => p.1)).Sublist cs := by
  induction cs with
  | nil => simp [difficultyStep]
  | cons c cs ih =>
    simp only [difficultyStep]
    by_cases h : (difficultyFilteredWords groups sel c).isEmpty
    · simp only [h, if_true]
      exact ih.trans (List.sublist_cons_self c cs)
    · simp only [h, if_false, List.map_cons]
      exact ih.cons₂ c

theorem difficultyStep_mem (groups : Groups) (sel : Option String)
    (cs : List String) (p : String × List VocabEntry) :
    p ∈ (difficultyStep groups sel cs).1 →
      p.2 = difficultyFilteredWords groups sel p.1 ∧ p.2 ≠ [] := by
  induction cs with
  | nil => intro h; cases h
  | cons c cs ih =>
    intro hp
    by_cases h : (difficultyFilteredWords groups sel c).isEmpty
    · simp only [difficultyStep, h, if_true] at hp
      exact ih hp
    · simp only [difficultyStep, h, Bool.false_eq_true, if_false,
        List.mem_cons] at hp
      rcases hp with hp | hp
      · subst hp
        exact ⟨rfl, fun h0 => h (by simpa using h0)⟩
      · exact ih hp

/-- The per-pair decision of the search step: a category whose name matches
keeps all its words; otherwise it keeps its matching words, or is dropped
when none match. -/
def searchKeep (lower : List Char) (p : String × List VocabEntry) :
    Option (String × List VocabEntry) :=
  if includesLower p.1 lower then some p
  else
    let fws := p.2.filter (matchesWord lower)
    if fws.isEmpty then none else some (p.1, fws)

theorem searchStep_fst_eq_filterMap (lower : List Char)
    (l : List (String × List VocabEntry)) :
    (searchStep lower l).1 = l.filterMap (searchKeep lower) := by
  induction l with
  | nil => rfl
  | cons p rest ih =>
    obtain ⟨c, ws⟩ := p
    simp only [searchStep, List.filterMap_cons]
    by_cases h1 : includesLower c lower
    · simp [searchKeep, h1, ih]
    · by_cases h2 : (ws.filter (matchesWord lower)).isEmpty <;>
        simp [searchKeep, h1, h2, ih]

theorem searchStep_total_eq_sum (lower : List Char)
    (l : List (String × List VocabEntry)) :
    (searchStep lower l).2 = ((searchStep lower l).1.map (fun p => p.2.length)).sum := by
  induction l with
  | nil => rfl
  | cons p rest ih =>
    obtain ⟨c, ws⟩ := p
    simp only [searchStep]
    by_cases h1 : includesLower c lower
    · simp [h1, ih]
    · by_cases h2 : (ws.filter (matchesWord lower)).isEmpty <;> simp [h1, h2, ih]

theorem searchStep_keys_sublist (lower : List Char)
    (l : List (String × List VocabEntry)) :
    ((searchStep lower l).1.map (fun p => p.1)).Sublist (l.map (fun p => p.1)) := by
  induction l with
  | nil => simp [searchStep]
  | cons p rest ih =>
    obtain ⟨c, ws⟩ := p
    simp only [searchStep, List.map_cons]
    by_cases h1 : includesLower c lower
    · simp only [h1, if_true, List.map_cons]
      exact ih.cons₂ c
    · by_cases h2 : (ws.filter (matchesWord lower)).isEmpty
      · simp only [h1, if_false, h2, if_true]
        exact ih.trans (List.sublist_cons_self c _)
      · simp only [h1, if_false, h2, List.map_cons]
        exact ih.cons₂ c

/-! ### Counting helpers -/

theorem sum_map_add_nat {α : Type} (f g : α → Nat) (l : List α) :
    (l.map (fun x => f x + g x)).sum = (l.map f).sum + (l.map g).sum := by
  induction l with
  | nil => rfl
  | cons x xs ih => simp [ih]; omega

theorem sum_indicator_nodup (cs : List String) (a : String) (hnd : cs.Nodup)
    (ha : a ∈ cs) : (cs.map (fun c => if a = c then 1 else 0)).sum = 1 := by
  induction cs with
  | nil => cases ha
  | cons c cs ih =>
    rw [List.nodup_cons] at hnd
    simp only [List.map_cons, List.sum_cons]
    by_cases h : a = c
    · subst h
      have hz : (cs.map (fun c => if a = c then 1 else 0)).sum = 0 := by
        refine List.sum_eq_zero ?_
        intro x hx
        obtain ⟨c', hc', rfl⟩ := List.mem_map.mp hx
        have hne : ¬ a = c' := fun hh => hnd.1 (hh ▸ hc')
        simp [hne]
      simp [hz]
    · have ha' : a ∈ cs := by
        rcases List.mem_cons.mp ha with h' | h'
        · exact absurd h' h
        · exact h'
      simp [h, ih hnd.2 ha']

theorem sum_counts (cs : List String) (hnd : cs.Nodup) (m : List VocabEntry)
    (hc : ∀ e ∈ m, e.category ∈ cs) :
    (cs.map (fun c => (m.filter (fun e => e.category == c)).length)).sum = m.length := by
  induction m with
  | nil =>
    simp only [List.filter_nil, List.length_nil]
    exact List.sum_eq_zero (by simp)
  | cons e m ih =>
    have hcm : ∀ x ∈ m, x.category ∈ cs := fun x hx => hc x (List.mem_cons_of_mem _ hx)
    have hce : e.category ∈ cs := hc e (List.mem_cons_self _ _)
    have hmap : cs.map (fun c => (List.filter (fun x => x.category == c) (e :: m)).length)
        = cs.map (fun c =>
            (if e.category = c then 1 else 0) +
              (List.filter (fun x => x.category == c) m).length) := by
      refine List.map_congr_left ?_
      intro c _
      by_cases h : e.category = c <;> simp [List.filter_cons, h, Nat.add_comm]
    rw [hmap, sum_map_add_nat, sum_indicator_nodup cs e.category hnd hce, ih hcm,
      List.length_cons]
    omega

theorem map_lookup_eq_map_snd (gs : Groups) (h : (gs.map (fun p => p.1)).Nodup) :
    (gs.map (fun p => p.1)).map (fun c => lookupGroup gs c) = gs.map (fun p => p.2) := by
  induction gs with
  | nil => rfl
  | cons p rest ih =>
    obtain ⟨c, ws⟩ := p
    simp only [List.map_cons, List.nodup_cons] at h ⊢
    obtain ⟨hcn, hrest⟩ := h
    have h1 : lookupGroup ((c, ws) :: rest) c = ws := by simp [lookupGroup]
    rw [h1]
    congr 1
    have hpt : ∀ c' ∈ rest.map (fun p => p.1),
        lookupGroup ((c, ws) :: rest) c' = lookupGroup rest c' := by
      intro c' hc'
      have hne : ¬ c = c' := fun hh => hcn (hh ▸ hc')
      simp [lookupGroup, hne]
    rw [List.map_congr_left hpt, ih hrest]

/-! ### Index-level characterizations -/

theorem flatten_map_perm_outer {α β : Type} (f : α → List β) {l1 l2 : List α}
    (h : l1.Perm l2) : ((l1.map f).flatten).Perm ((l2.map f).flatten) := by
  induction h with
  | nil => exact List.Perm.refl _
  | cons x _ ih =>
    simp only [List.map_cons, List.flatten_cons]
    exact List.Perm.append_left (f x) ih
  | swap x y l =>
    simp only [List.map_cons, List.flatten_cons]
    rw [← List.append_assoc, ← List.append_assoc]
    exact List.Perm.append_right _ List.perm_append_comm
  | trans _ _ ih1 ih2 => exact ih1.trans ih2

theorem flatten_map_congr_perm {α β : Type} (f g : α → List β) :
    ∀ l : List α, (∀ a ∈ l, (f a).Perm (g a)) →
      ((l.map f).flatten).Perm ((l.map g).flatten) := by
  intro l
  induction l with
  | nil => intro _; exact List.Perm.refl _
  | cons a t ih =>
    intro h
    simp only [List.map_cons, List.flatten_cons]
    exact (h a (List.mem_cons_self _ _)).append
      (ih fun x hx => h x (List.mem_cons_of_mem _ hx))

theorem flatten_groupScorePass (vocab : List VocabEntry) :
    (((groupScorePass vocab).1.map (fun p => p.2)).flatten).Perm vocab := by
  rw [groupScorePass, foldl_groupScoreStep_fst]
  simpa using flatten_foldl_insertEntry vocab []

theorem buildIndex_groups_lookup (vocab : List VocabEntry) (c : String) :
    lookupGroup (buildIndex vocab).groups c =
      sortByKeyDesc entryWeight (vocab.filter (fun e => e.category == c)) := by
  show lookupGroup ((groupScorePass vocab).1.map
    (fun p => (p.1, sortByKeyDesc entryWeight p.2))) c = _
  rw [lookupGroup_map_sort, lookupGroup_groupScorePass]

theorem buildIndex_groups_keys (vocab : List VocabEntry) :
    (buildIndex vocab).groups.map (fun p => p.1) = firstSeenCategories vocab := by
  show ((groupScorePass vocab).1.map
    (fun p => (p.1, sortByKeyDesc entryWeight p.2))).map (fun p => p.1) = _
  rw [List.map_map]
  exact keys_groupScorePass vocab

theorem buildIndex_ranked_eq (vocab : List VocabEntry) :
    (buildIndex vocab).ranked =
      sortByKeyDesc (lookupScore (groupScorePass vocab).2)
        (firstSeenCategories vocab) := by
  show sortByKeyDesc (lookupScore (groupScorePass vocab).2)
    ((groupScorePass vocab).1.map (fun p => p.1)) = _
  rw [keys_groupScorePass]

theorem ranked_perm_firstSeen (vocab : List VocabEntry) :
    ((buildIndex vocab).ranked).Perm (firstSeenCategories vocab) := by
  rw [buildIndex_ranked_eq]
  exact sortByKeyDesc_perm _ _

theorem ranked_nodup (vocab : List VocabEntry) :
    (buildIndex vocab).ranked.Nodup :=
  (ranked_perm_firstSeen vocab).nodup_iff.mpr (firstSeen_nodup vocab)

/-! ### Pipeline-level facts -/

theorem filteredPipeline_empty_search (vocab : List VocabEntry)
    (sel : Option String) :
    filteredPipeline vocab sel "" =
      difficultyStep (buildIndex vocab).groups sel (buildIndex vocab).ranked := rfl

theorem filteredPipeline_trim_empty (vocab : List VocabEntry) (sel : Option String)
    (term : String) (h : jsTrimList term = []) :
    filteredPipeline vocab sel term = filteredPipeline vocab sel "" := by
  rw [filteredPipeline_empty_search]
  simp [filteredPipeline, h]

theorem dfw_some_length (vocab : List VocabEntry) (d : String) (c : String) :
    (difficultyFilteredWords (buildIndex vocab).groups (some d) c).length =
      ((vocab.filter (fun w => w.difficulty == d)).filter
        (fun e => e.category == c)).length := by
  show ((lookupGroup (buildIndex vocab).groups c).filter
    (fun w => w.difficulty == d)).length = _
  rw [buildIndex_groups_lookup]
  have hperm := (sortByKeyDesc_perm entryWeight
    (vocab.filter (fun e => e.category == c))).filter (fun w => w.difficulty == d)
  rw [hperm.length_eq, List.filter_filter, List.filter_filter]
  refine congrArg List.length (List.filter_congr ?_)
  intro e _
  exact Bool.and_comm _ _

theorem pipeline_some_total (vocab : List VocabEntry) (d : String) :
    (filteredPipeline vocab (some d) "").2 =
      (vocab.filter (fun w => w.difficulty == d)).length := by
  rw [filteredPipeline_empty_search, difficultyStep_total_eq_map_sum]
  rw [List.map_congr_left (fun c _ => dfw_some_length vocab d c)]
  have hperm := (ranked_perm_firstSeen vocab).map
    (fun c => ((vocab.filter (fun w => w.difficulty == d)).filter
      (fun e => e.category == c)).length)
  rw [hperm.sum_eq]
  exact sum_counts _ (firstSeen_nodup vocab) _
    (fun e he => category_mem_firstSeen vocab e (List.mem_of_mem_filter he))

theorem pipeline_none_flatten (vocab : List VocabEntry) :
    (((filteredPipeline vocab none "").1.map (fun p => p.2)).flatten).Perm vocab := by
  rw [filteredPipeline_empty_search, difficultyStep_flatten]
  have hdfw : ∀ c ∈ (buildIndex vocab).ranked,
      difficultyFilteredWords (buildIndex vocab).groups none c =
        lookupGroup (buildIndex vocab).groups c := fun c _ => rfl
  rw [List.map_congr_left hdfw]
  have hkeys := buildIndex_groups_keys vocab
  have hrk : ((buildIndex vocab).ranked).Perm
      ((buildIndex vocab).groups.map (fun p => p.1)) := by
    rw [hkeys]; exact ranked_perm_firstSeen vocab
  refine (flatten_map_perm_outer (lookupGroup (buildIndex vocab).groups) hrk).trans ?_
  have hnd : ((buildIndex vocab).groups.map (fun p => p.1)).Nodup := by
    rw [hkeys]; exact firstSeen_nodup vocab
  rw [map_lookup_eq_map_snd _ hnd]
  refine List.Perm.trans ?_ (flatten_groupScorePass vocab)
  exact flatten_map_sort (groupScorePass vocab).1

theorem pipeline_none_total (vocab : List VocabEntry) :
    (filteredPipeline vocab none "").2 = vocab.length := by
  rw [filteredPipeline_empty_search, difficultyStep_total_eq_sum]
  have := (pipeline_none_flatten vocab).length_eq
  rw [filteredPipeline_empty_search] at this
  rw [← this]
  rw [List.length_flatten]
  rw [List.map_map]
  rfl

/-! ### Search-string facts -/

theorem listStarts_self (l : List Char) : listStarts l l = true := by
  induction l with
  | nil => rfl
  | cons a t ih => simp [listStarts, ih]

theorem listContains_self (l : List Char) : listContains l l = true := by
  cases l with
  | nil => rfl
  | cons a t => simp [listContains, listStarts_self]

/-! ### Ranking wrt the aggregate score -/

theorem ranked_sorted_catScore (vocab : List VocabEntry) :
    List.Sorted (fun a b => catScore vocab b ≤ catScore vocab a)
      (buildIndex vocab).ranked := by
  rw [buildIndex_ranked_eq]
  have h := sortByKeyDesc_sorted (lookupScore (groupScorePass vocab).2)
    (firstSeenCategories vocab)
  exact h.imp (fun hab => by
    rwa [lookupScore_groupScorePass, lookupScore_groupScorePass] at hab)

theorem ranked_filter_catScore (vocab : List VocabEntry) (k : Nat) :
    (buildIndex vocab).ranked.filter (fun c => catScore vocab c == k) =
      (firstSeenCategories vocab).filter (fun c => catScore vocab c == k) := by
  rw [buildIndex_ranked_eq]
  have hpred : ∀ c, (catScore vocab c == k) =
      (lookupScore (groupScorePass vocab).2 c == k) := by
    intro c; rw [lookupScore_groupScorePass]
  rw [List.filter_congr (fun c _ => hpred c), filter_sortByKeyDesc,
    List.filter_congr (fun c _ => (hpred c).symm)]

theorem group_sorted (vocab : List VocabEntry) (c : String) :
    List.Sorted (fun a b => entryWeight b ≤ entryWeight a)
      (lookupGroup (buildIndex vocab).groups c) := by
  rw [buildIndex_groups_lookup]
  exact sortByKeyDesc_sorted _ _

theorem group_filter_stable (vocab : List VocabEntry) (c : String) (k : Nat) :
    (lookupGroup (buildIndex vocab).groups c).filter (fun e => entryWeight e == k) =
      (vocab.filter (fun e => e.category == c)).filter
        (fun e => entryWeight e == k) := by
  rw [buildIndex_groups_lookup]
  exact filter_sortByKeyDesc _ _ _

/-! ### Observer-set monotonicity -/

theorem observerCallback_subset (visible : Finset String) (entries : List ObsEntry) :
    visible ⊆ observerCallback visible entries := by
  induction entries generalizing visible with
  | nil => exact Finset.Subset.refl _
  | cons e t ih =>
    simp only [observerCallback, List.foldl_cons]
    by_cases h : e.isIntersecting
    · simp only [h, if_true]
      exact Finset.Subset.trans (Finset.subset_insert _ _) (ih _)
    · simpa [h] using ih visible

theorem runEvents_visible_subset (st : CompState) (es : List VocabEvent) :
    st.visibleCategories ⊆ (runEvents st es).visibleCategories := by
  induction es generalizing st with
  | nil => exact Finset.Subset.refl _
  | cons e t ih =>
    simp only [runEvents, List.foldl_cons]
    refine Finset.Subset.trans ?_ (ih (stepEvent st e))
    cases e with
    | observe entries => exact observerCallback_subset _ _
    | setSearch s => exact Finset.Subset.refl _
    | setDifficulty d => exact Finset.Subset.refl _

/-! ### Debounce facts -/

theorem debounceFires_within (ks : List (Nat × String)) :
    ∀ (h1 : ks ≠ []), withinWindowB 300 ks = true →
      debounceFires 300 ks = [((ks.getLast h1).1 + 300, (ks.getLast h1).2)] := by
  induction ks with
  | nil => intro h1; exact absurd rfl h1
  | cons a t ih =>
    intro h1 h2
    cases t with
    | nil =>
      obtain ⟨ta, va⟩ := a
      simp [debounceFires, List.getLast]
    | cons b t' =>
      obtain ⟨ta, va⟩ := a
      obtain ⟨tb, vb⟩ := b
      simp only [withinWindowB, Bool.and_eq_true, decide_eq_true_eq] at h2
      obtain ⟨hlt, h2'⟩ := h2
      have hres := ih (List.cons_ne_nil _ _) h2'
      simp only [debounceFires, hlt, if_true, List.getLast_cons]
      exact hres

theorem debounceRuns_unmount (ks : List (Nat × String)) (h1 : ks ≠ [])
    (h2 : withinWindowB 300 ks = true) (u : Nat)
    (hu : u ≤ (ks.getLast h1).1 + 300) :
    debounceRuns 300 ks (some u) = [] := by
  rw [debounceRuns, debounceFires_within ks h1 h2]
  have hnot : ¬ ((ks.getLast h1).1 + 300 < u) := by omega
  simp [hnot]

/-! ### Remaining pipeline facts -/

theorem filteredPipeline_search (vocab : List VocabEntry) (sel : Option String)
    (term : String) (h : ¬ (jsTrimList term).isEmpty = true) :
    filteredPipeline vocab sel term =
      searchStep ((jsTrimList term).map Char.toLower)
        (difficultyStep (buildIndex vocab).groups sel (buildIndex vocab).ranked).1 := by
  simp [filteredPipeline, h]

theorem pipeline_some_all (vocab : List VocabEntry) (d : String) :
    ((filteredPipeline vocab (some d) "").1.all
      (fun p => !p.2.isEmpty && p.2.all (fun w => w.difficulty == d))) = true := by
  rw [filteredPipeline_empty_search, List.all_eq_true]
  intro p hp
  obtain ⟨h1, h2⟩ := difficultyStep_mem _ _ _ p hp
  have hemp : p.2.isEmpty = false := by
    cases hp2 : p.2
    · exact absurd hp2 h2
    · rfl
  simp only [hemp, Bool.not_false, Bool.true_and]
  rw [List.all_eq_true]
  intro w hw
  rw [h1] at hw
  simp only [difficultyFilteredWords] at hw
  exact (List.mem_filter.mp hw).2

/-! ### The example from the specification -/

/-- Spec example entry `{arabic:"أ",bengali:"অ",difficulty:"easy",category:"Nouns"}`. -/
def exNounEasy : VocabEntry := ⟨"أ", "অ", none, "Nouns", "easy"⟩

/-- Spec example entry `{arabic:"ب",bengali:"ব",difficulty:"hard",category:"Nouns"}`. -/
def exNounHard : VocabEntry := ⟨"ب", "ব", none, "Nouns", "hard"⟩

/-- Spec example entry `{arabic:"ج",bengali:"জ",difficulty:"medium",category:"Verbs"}`. -/
def exVerbMedium : VocabEntry := ⟨"ج", "জ", none, "Verbs", "medium"⟩

/-- The spec's worked example input. -/
def exampleVocab : List VocabEntry := [exNounEasy, exNounHard, exVerbMedium]

example : (buildIndex exampleVocab).ranked = ["Nouns", "Verbs"] := by decide

/-! ### Claim theorems -/

/-- C1: for every input list, the multiset union of the entries across all
category groups of the unfiltered `CategoryIndex` is a permutation of the
input list — every entry appears exactly once, none duplicated, none lost. -/
theorem claim1_unfiltered_union_perm (vocab : List VocabEntry) :
    (((buildIndex vocab).groups.map (fun p => p.2)).flatten).Perm vocab :=
  (flatten_map_sort (groupScorePass vocab).1).trans (flatten_groupScorePass vocab)

/-- C2: the ranked category list is sorted by descending aggregate score
(sum of per-entry weights: easy = 1, medium = 2, hard = 3, unknown = 0), and
for every score value the categories carrying it appear in first-encountered
input order (stable ranking). Ranking is a pure function of the input, so two
runs on identical input give identical order. The spec's worked example
evaluates as stated: category order `["Nouns", "Verbs"]` (scores 4 vs 2) and
`Nouns` entries ordered hard-then-easy. -/
theorem claim2_ranking_sorted_stable :
    (∀ vocab : List VocabEntry,
      List.Sorted (fun a b => catScore vocab b ≤ catScore vocab a)
        (buildIndex vocab).ranked
      ∧ ∀ k : Nat,
          (buildIndex vocab).ranked.filter (fun c => catScore vocab c == k) =
            (firstSeenCategories vocab).filter (fun c => catScore vocab c == k))
    ∧ (buildIndex exampleVocab).ranked = ["Nouns", "Verbs"]
    ∧ lookupGroup (buildIndex exampleVocab).groups "Nouns" =
        [exNounHard, exNounEasy] :=
  ⟨fun vocab => ⟨ranked_sorted_catScore vocab, fun k => ranked_filter_catScore vocab k⟩,
   by decide, by decide⟩

/-- C3: within each category of the `CategoryIndex`, entries are sorted by
descending difficulty weight (hard 3, medium 2, easy 1, unknown 0 last), and
for every weight value the entries carrying it keep their relative input
order (stable sort). -/
theorem claim3_within_category_order (vocab : List VocabEntry) (c : String) :
    List.Sorted (fun a b => entryWeight b ≤ entryWeight a)
      (lookupGroup (buildIndex vocab).groups c)
    ∧ ∀ k : Nat,
        (lookupGroup (buildIndex vocab).groups c).filter
            (fun e => entryWeight e == k) =
          (vocab.filter (fun e => e.category == c)).filter
            (fun e => entryWeight e == k) :=
  ⟨group_sorted vocab c, fun k => group_filter_stable vocab c k⟩

/-- C4: with a selected difficulty `d`, every surviving category is nonempty
and holds exactly entries of difficulty `d` (so unknown-difficulty entries
are excluded by any active filter), and the reported total equals the number
of input entries of difficulty `d`; with no selected difficulty all entries
are kept and the total is the input length. -/
theorem claim4_difficulty_filter (vocab : List VocabEntry) (d : String) :
    ((filteredPipeline vocab (some d) "").1.all
      (fun p => !p.2.isEmpty && p.2.all (fun w => w.difficulty == d))) = true
    ∧ (filteredPipeline vocab (some d) "").2 =
        (vocab.filter (fun w => w.difficulty == d)).length
    ∧ (((filteredPipeline vocab none "").1.map (fun p => p.2)).flatten).Perm vocab
    ∧ (filteredPipeline vocab none "").2 = vocab.length :=
  ⟨pipeline_some_all vocab d, pipeline_some_total vocab d,
   pipeline_none_flatten vocab, pipeline_none_total vocab⟩

/-- C5: for a non-whitespace search term, the output is obtained from the
difficulty-filtered data by keeping a category with all of its entries when
its name contains the lowered term, otherwise keeping only the entries whose
`arabic`, `bengali` or `pronunciation` contains it, dropping categories left
empty; in particular a term whose lowered trim equals a category's lowered
name keeps that category's full entry set, and for an entry with absent
`pronunciation` the match reduces to the `arabic`/`bengali` fields only. -/
theorem claim5_search_filter (vocab : List VocabEntry) (sel : Option String)
    (term : String) (h : ¬ (jsTrimList term).isEmpty = true) :
    (filteredPipeline vocab sel term).1 =
      (difficultyStep (buildIndex vocab).groups sel
        (buildIndex vocab).ranked).1.filterMap
          (searchKeep ((jsTrimList term).map Char.toLower))
    ∧ (∀ p ∈ (difficultyStep (buildIndex vocab).groups sel
          (buildIndex vocab).ranked).1,
        lowerList p.1 = (jsTrimList term).map Char.toLower →
          p ∈ (filteredPipeline vocab sel term).1)
    ∧ (∀ w : VocabEntry, w.pronunciation = none →
        matchesWord ((jsTrimList term).map Char.toLower) w =
          ((!(w.arabic == "") &&
              includesLower w.arabic ((jsTrimList term).map Char.toLower)) ||
           (!(w.bengali == "") &&
              includesLower w.bengali ((jsTrimList term).map Char.toLower)))) := by
  have hmain : (filteredPipeline vocab sel term).1 =
      (difficultyStep (buildIndex vocab).groups sel
        (buildIndex vocab).ranked).1.filterMap
          (searchKeep ((jsTrimList term).map Char.toLower)) := by
    rw [filteredPipeline_search vocab sel term h, searchStep_fst_eq_filterMap]
  refine ⟨hmain, ?_, ?_⟩
  · intro p hp hlow
    rw [hmain]
    refine List.mem_filterMap.mpr ⟨p, hp, ?_⟩
    have hinc : includesLower p.1 ((jsTrimList term).map Char.toLower) = true := by
      rw [includesLower, ← hlow]
      exact listContains_self _
    simp [searchKeep, hinc]
  · intro w hw
    simp [matchesWord, hw]

/-- C5 witness: for the spec example and the term `"nOuNs "`, whose trimmed
lowercase form equals the lowered category name, the `Nouns` category
survives with its full (difficulty-sorted) entry list. -/
theorem claim5_witness :
    (¬ (jsTrimList "nOuNs ").isEmpty = true)
    ∧ ("Nouns", [exNounHard, exNounEasy]) ∈
        (filteredPipeline exampleVocab none "nOuNs ").1 :=
  ⟨by decide, (claim5_search_filter exampleVocab none "nOuNs " (by decide)).2.1
    ("Nouns", [exNounHard, exNounEasy]) (by decide) (by decide)⟩

/-- C6: for every filter state, the output's category order is a sublist of
the ranked order of the unfiltered index, the reported total equals the sum
of the surviving entry-list lengths, and a whitespace-only search term
behaves exactly like the empty term. -/
theorem claim6_pipeline_shape (vocab : List VocabEntry) (sel : Option String)
    (term : String) :
    ((filteredPipeline vocab sel term).1.map (fun p => p.1)).Sublist
        (buildIndex vocab).ranked
    ∧ (filteredPipeline vocab sel term).2 =
        ((filteredPipeline vocab sel term).1.map (fun p => p.2.length)).sum
    ∧ (jsTrimList term = [] →
        filteredPipeline vocab sel term = filteredPipeline vocab sel "") := by
  refine ⟨?_, ?_, fun h => filteredPipeline_trim_empty vocab sel term h⟩
  · by_cases h : (jsTrimList term).isEmpty = true
    · rw [filteredPipeline_trim_empty vocab sel term (List.isEmpty_iff.mp h),
        filteredPipeline_empty_search]
      exact difficultyStep_keys_sublist _ _ _
    · rw [filteredPipeline_search vocab sel term h]
      exact (searchStep_keys_sublist _ _).trans (difficultyStep_keys_sublist _ _ _)
  · by_cases h : (jsTrimList term).isEmpty = true
    · rw [filteredPipeline_trim_empty vocab sel term (List.isEmpty_iff.mp h),
        filteredPipeline_empty_search]
      exact difficultyStep_total_eq_sum _ _ _
    · rw [filteredPipeline_search vocab sel term h]
      exact searchStep_total_eq_sum _ _

/-- C6 witness: a whitespace-only term gives the same output as the empty
term on the spec example. -/
theorem claim6_witness :
    jsTrimList "   " = []
    ∧ filteredPipeline exampleVocab none "   " =
        filteredPipeline exampleVocab none "" :=
  ⟨by decide, (claim6_pipeline_shape exampleVocab none "   ").2.2 (by decide)⟩

/-- C7: the guarded variant treats absent input as the empty list and yields
the empty index and an empty, zero-count pipeline output for every filter
state without failing, and an empty array also yields the empty index; but
the `part_000` variant's grouping reads `vocabulary.length` unguarded and
throws a `TypeError` on absent input. -/
theorem claim7_absent_input (sel : Option String) (term : String) :
    part0GroupedVocabulary none =
      Except.error "TypeError: cannot read length of undefined"
    ∧ buildIndex (vocabData none) = ⟨[], []⟩
    ∧ filteredPipeline (vocabData none) sel term = ([], 0)
    ∧ part0GroupedVocabulary (some []) = Except.ok ⟨[], []⟩ := by
  refine ⟨rfl, rfl, ?_, rfl⟩
  show filteredPipeline [] sel term = ([], 0)
  by_cases h : (jsTrimList term).isEmpty = true
  · rw [filteredPipeline_trim_empty [] sel term (List.isEmpty_iff.mp h)]
    rfl
  · rw [filteredPipeline_search [] sel term h]
    rfl

/-- C8 counterexample: in the `part_000` variant a category is not reported
as revealed when the visibility set is empty, contradicting the claim's
empty-set bootstrap rule for every rendered output. -/
theorem claim8_counterexample :
    isVisiblePart0 (∅ : Finset String) "Nouns" = false := by decide

/-- C8 (amended): in the `Vocabulary.jsx` variant, every category is
reported revealed when the visibility set is empty, and once the set is
non-empty a category is revealed exactly when its name is in the set; the
`part_000` variant has no empty-set bootstrap and reports a category
revealed exactly when its name is in the set. -/
theorem claim8_visibility_rules (s : Finset String) (c : String) :
    (s.card = 0 → isVisibleJsx s c = true)
    ∧ (s.card ≠ 0 → (isVisibleJsx s c = true ↔ c ∈ s))
    ∧ (isVisiblePart0 s c = true ↔ c ∈ s) := by
  refine ⟨?_, ?_, ?_⟩
  · intro h; simp [isVisibleJsx, h]
  · intro h; simp [isVisibleJsx, h]
  · simp [isVisiblePart0]

/-- C8 witness: with the non-empty set `{"Nouns"}`, an unobserved category
is revealed in the jsx variant exactly when it is in the set. -/
theorem claim8_witness :
    (({"Nouns"} : Finset String).card ≠ 0)
    ∧ (isVisibleJsx {"Nouns"} "Verbs" = true ↔
        "Verbs" ∈ ({"Nouns"} : Finset String)) :=
  ⟨by decide, (claim8_visibility_rules {"Nouns"} "Verbs").2.1 (by decide)⟩

/-- C9: for any chronological sequence of raw-value updates in which each
update arrives strictly within the 300 ms window of the previous one, the
debounced value is set exactly once, 300 ms after the last update and with
only its value (each earlier update's timer was cancelled by the next);
unmounting no later than that firing time cancels the pending update, so
nothing fires at all. -/
theorem claim9_debounce_once (ks : List (Nat × String)) (h1 : ks ≠ [])
    (h2 : withinWindowB 300 ks = true) :
    debounceFires 300 ks = [((ks.getLast h1).1 + 300, (ks.getLast h1).2)]
    ∧ ∀ u : Nat, u ≤ (ks.getLast h1).1 + 300 → debounceRuns 300 ks (some u) = [] :=
  ⟨debounceFires_within ks h1 h2, fun u hu => debounceRuns_unmount ks h1 h2 u hu⟩

/-- C9 witness: three keystrokes at 0, 100, 200 ms produce exactly one
debounced update, at 500 ms with the final value, and unmounting at 450 ms
cancels it. -/
theorem claim9_witness :
    ([(0, "a"), (100, "ab"), (200, "abc")] : List (Nat × String)) ≠ []
    ∧ debounceFires 300 [(0, "a"), (100, "ab"), (200, "abc")] = [(500, "abc")]
    ∧ debounceRuns 300 [(0, "a"), (100, "ab"), (200, "abc")] (some 450) = [] := by
  have h := claim9_debounce_once [(0, "a"), (100, "ab"), (200, "abc")]
    (by decide) (by decide)
  exact ⟨by decide, h.1, h.2 450 (by decide)⟩

/-- C10: over any sequence of component events, the set of revealed category
names only grows: the state reached by any trace contains the starting
visibility set, each observer-callback step only adds names, and the search
and difficulty setters leave the set exactly unchanged — so a category
revealed under one filter state stays revealed under every later one. -/
theorem claim10_visibility_monotone (st : CompState) (es : List VocabEvent) :
    st.visibleCategories ⊆ (runEvents st es).visibleCategories
    ∧ (∀ entries : List ObsEntry,
        st.visibleCategories ⊆
          (stepEvent st (VocabEvent.observe entries)).visibleCategories)
    ∧ (∀ s : String,
        (stepEvent st (VocabEvent.setSearch s)).visibleCategories =
          st.visibleCategories)
    ∧ (∀ d : Option String,
        (stepEvent st (VocabEvent.setDifficulty d)).visibleCategories =
          st.visibleCategories) :=
  ⟨runEvents_visible_subset st es,
   fun _ => observerCallback_subset _ _,
   fun _ => rfl, fun _ => rfl⟩
